import Mathlib

/-!
Verification of the composable-state action engine.

The definitions below are a shallow embedding of the engine in
`src/index.js` (the `composable` variant, the most complete one):
JavaScript values become the inductive `Value`, an immutable action
(a literal or a unary transform) becomes the inductive `Action`, and a
thrown exception during evaluation is modelled as `none` in `Option`.
-/

namespace ComposableState

/-- A JavaScript value as the engine sees it: `undef` is the absence
marker (`undefined`), records are objects (association lists in
insertion order, keys unique in any value a JS program can build),
sequences are arrays. -/
inductive Value where
  | absent : Value
  | bool : Bool → Value
  | num : Int → Value
  | str : String → Value
  | record : List (String × Value) → Value
  | seq : List Value → Value

/-- An action-or-literal: the engine dispatches on
`typeof immutableAction === 'function'`, so an action is either an
invocable transform (`fn`, whose body may throw, modelled by `Option`)
or any other value, treated as a literal (`lit`). -/
inductive Action where
  | lit : Value → Action
  | fn : (Value → Option Value) → Action

/-- A property key as used by `setIn`: callers pass either a string or
a numeric array index (JS coerces between the two when indexing). -/
inductive Key where
  | str : String → Key
  | idx : Nat → Key

/-- The evaluator `composable(state, immutableAction)`:
`typeof immutableAction === 'function' ? immutableAction(state) : immutableAction`. -/
def composable (state : Value) : Action → Option Value
  | .fn f => f state
  | .lit v => some v

/-- Property read `obj[key]` on an object given as an association list:
the stored value, or `undefined` when the key is absent. -/
def jsLookup : List (String × Value) → String → Value
  | [], _ => .absent
  | (k2, v2) :: es, k => if k2 == k then v2 else jsLookup es k

/-- Property write `obj[key] = v` on an object: update the existing
property in place (insertion order kept) or append a new one. -/
def recordSet : List (String × Value) → String → Value → List (String × Value)
  | [], k, v => [(k, v)]
  | (k2, v2) :: es, k, v =>
    if k2 == k then (k, v) :: es else (k2, v2) :: recordSet es k v

/-- Array element read `arr[i]`: `undefined` beyond the end. -/
def jsIndex (xs : List Value) (i : Nat) : Value :=
  (xs.get? i).getD .absent

/-- Array element write `arr[i] = v`: in range it replaces the element;
beyond the end JS extends the array, the skipped slots reading back as
`undefined` (modelled as explicit `undef` fill). -/
def jsIndexSet (xs : List Value) (i : Nat) (v : Value) : List Value :=
  if i < xs.length then xs.set i v
  else xs ++ (List.replicate (i - xs.length) Value.absent ++ [v])

/-- The own enumerable entries object spread `{...x}` copies: a record
spreads to its entries, an array to index-keyed entries, a string to
its character-index entries, and every other primitive to nothing. -/
def objEntries : Value → List (String × Value)
  | .record es => es
  | .seq xs => xs.enum.map (fun p => (toString p.1, p.2))
  | .str s => s.toList.enum.map (fun p => (toString p.1, Value.str (String.mk [p.2])))
  | _ => []

/-- Spread-merge `{...base, ...upd}`: base entries overwritten, in
place, by upd entries in order; new keys appended. -/
def spreadInto (base upd : List (String × Value)) : List (String × Value) :=
  upd.foldl (fun acc kv => recordSet acc kv.1 kv.2) base

/-- A string key that an array treats as an element index: the
canonical decimal numeral check JS array indexing performs. -/
def keyIndex : Key → Option Nat
  | .idx i => some i
  | .str s =>
    match s.toNat? with
    | some n => if toString n == s then some n else none
    | none => none

/-- The string a key coerces to when used as an object property. -/
def keyToString : Key → String
  | .str s => s
  | .idx i => toString i

/-- `merge(immutableAction)`: `(state) => ({...state, ...composable(state, immutableAction)})`. -/
def merge (u : Action) : Action :=
  .fn (fun state =>
    (composable state u).map (fun uv => .record (spreadInto (objEntries state) (objEntries uv))))

/-- `setIn(key, immutableAction)`: shallow-copy the state
(`Array.isArray(state) ? [...state] : {...state}`), then
`value[key] = composable(value[key], immutableAction)` and return the
copy.  A non-index string key written to an array copy becomes a named
own property of the array, which lies outside the `Value` type; the
update is still evaluated against `undefined` (so its exceptions
propagate) and the elements are returned unchanged. -/
def setIn (k : Key) (u : Action) : Action :=
  .fn (fun state =>
    match state with
    | .seq xs =>
      match keyIndex k with
      | some i => (composable (jsIndex xs i) u).map (fun v => .seq (jsIndexSet xs i v))
      | none => (composable .absent u).map (fun _ => .seq xs)
    | _ =>
      (composable (jsLookup (objEntries state) (keyToString k)) u).map
        (fun v => .record (recordSet (objEntries state) (keyToString k) v)))

/-- `replace(update)`: `(state) => typeof update === 'function' ? update(state) : update`,
i.e. exactly the evaluator applied to `update`. -/
def replace (update : Action) : Action :=
  .fn (fun state => composable state update)

/-- `selectArray(path, immutableAction)`: empty path applies the action
at the current context; otherwise descend through `setIn` on the first
key with the recursion on the rest. -/
def selectArray : List Key → Action → Action
  | [], u => .fn (fun state => composable state u)
  | k :: rest, u => .fn (fun state => composable state (setIn k (selectArray rest u)))

/-- JS `\w` (no unicode flag): ASCII letters, digits, underscore. -/
def isWordChar (c : Char) : Bool :=
  c.isAlphanum || c == '_'

/-- Left-to-right global scan of `/(\w+|\[[^\]]+\])/g`: at each
position try a maximal `\w+` run, else a bracketed run `\[[^\]]+\]`
(at least one non-`]` character, then `]`); on failure advance one
character, exactly as the regex engine does. Tokens keep their
brackets, as `String.match` returns them. The `fuel` argument only
bounds the recursion structurally; every step consumes at least one
character, so `scanTokens` below supplies the input length and the
`fuel = 0` fallback is never reached from it. -/
def scanAux : Nat → List Char → List String
  | _, [] => []
  | 0, _ :: _ => []
  | fuel + 1, c :: cs =>
    if isWordChar c then
      String.mk (c :: cs.takeWhile isWordChar) :: scanAux fuel (cs.dropWhile isWordChar)
    else if c == '[' then
      match cs.dropWhile (fun x => x != ']') with
      | ']' :: rest =>
        if (cs.takeWhile (fun x => x != ']')).isEmpty then scanAux fuel cs
        else String.mk ('[' :: cs.takeWhile (fun x => x != ']') ++ [']']) :: scanAux fuel rest
      | _ => scanAux fuel cs
    else scanAux fuel cs

/-- All matches of `/(\w+|\[[^\]]+\])/g` over the input, in order. -/
def scanTokens (l : List Char) : List String :=
  scanAux l.length l

/-- JS `String.prototype.replace` with a one-character pattern: remove
the first occurrence only. -/
def removeFirst (c : Char) : List Char → List Char
  | [] => []
  | x :: xs => if x == c then xs else x :: removeFirst c xs

/-- The `.replace('[', '').replace(']', '')` step applied to every
matched token. -/
def stripBrackets (s : String) : String :=
  String.mk (removeFirst ']' (removeFirst '[' s.toList))

/-- `pathSplit(path)`: `Array.from(path.match(regexp)).map(strip)`.
When the regex finds no token, `match` returns `null` and
`Array.from(null)` throws, modelled as `none`. -/
def pathSplit (path : String) : Option (List String) :=
  match scanTokens path.toList with
  | [] => none
  | ts => some (ts.map stripBrackets)

/-- `select(path, immutableAction)`: `selectArray(pathSplit(path), immutableAction)`;
the `pathSplit` exception (malformed path) propagates, so no action is
ever produced for such a path. -/
def select (path : String) (u : Action) : Option Action :=
  (pathSplit path).map (fun ks => selectArray (ks.map Key.str) u)

/-- One step of the `reduce` in `collect`:
`(memo, action) => composable(memo, action)`, with a thrown exception
(`none`) aborting the whole fold. -/
def chainStep (memo : Option Value) (a : Action) : Option Value :=
  memo.bind (fun m => composable m a)

/-- `collect(immutableActions)`: reduce the evaluator over the list in
order, starting from the state. -/
def collect (actions : List Action) : Action :=
  .fn (fun state => actions.foldl chainStep (some state))

/-- One step of the `reduce` in `selectAll`:
`(memo, path) => composable(memo, select(path, pathsWithActions[path]))`,
a malformed path throwing before the evaluator runs. -/
def selectStep (memo : Option Value) (pa : String × Action) : Option Value :=
  memo.bind (fun m => (select pa.1 pa.2).bind (fun a => composable m a))

/-- `selectAll(pathsWithActions)`: reduce over the entries in iteration
order, threading the context; entries are modelled as an ordered list
of (path, action) pairs, matching `Object.keys` enumeration order. -/
def selectAll (ps : List (String × Action)) : Action :=
  .fn (fun state => ps.foldl selectStep (some state))

/-- The argument of `Array.prototype.concat`: an array argument is
spread into elements, anything else appended as a single element. -/
def concatArg : Value → List Value
  | .seq xs => xs
  | v => [v]

/-- `range(start, length, immutableAction)`:
`state.slice(0, start).concat(composable(state.slice(start, start+length), immutableAction)).concat(state.slice(start+length))`;
`slice(a, b)` for natural bounds is drop/take with clamping. A
non-array context has no `.slice` and throws. -/
def range (start len : Nat) (u : Action) : Action :=
  .fn (fun state =>
    match state with
    | .seq xs =>
      (composable (.seq ((xs.drop start).take len)) u).map
        (fun w => .seq (xs.take start ++ concatArg w ++ xs.drop (start + len)))
    | _ => none)

/-! Helper lemmas about property reads after property writes. -/

theorem jsLookup_recordSet_self (es : List (String × Value)) (k : String) (v : Value) :
    jsLookup (recordSet es k v) k = v := by
  induction es with
  | nil => simp [recordSet, jsLookup]
  | cons p es ih =>
    obtain ⟨k2, v2⟩ := p
    by_cases h : k2 = k
    · subst h
      simp [recordSet, jsLookup]
    · simp [recordSet, jsLookup, h, ih]

theorem jsLookup_recordSet_other (es : List (String × Value)) (k k2 : String) (v : Value)
    (h : k2 ≠ k) : jsLookup (recordSet es k v) k2 = jsLookup es k2 := by
  induction es with
  | nil => simp [recordSet, jsLookup, Ne.symm h]
  | cons p es ih =>
    obtain ⟨k3, v3⟩ := p
    by_cases h3 : k3 = k
    · subst h3
      simp [recordSet, jsLookup, Ne.symm h]
    · by_cases h2 : k3 = k2 <;> simp [recordSet, jsLookup, h, h3, h2, ih]

theorem jsIndex_jsIndexSet_self (xs : List Value) (i : Nat) (v : Value) :
    jsIndex (jsIndexSet xs i v) i = v := by
  by_cases h : i < xs.length
  · simp [jsIndex, jsIndexSet, h]
  · push_neg at h
    simp only [jsIndexSet, jsIndex, List.get?_eq_getElem?]
    rw [if_neg (show ¬ i < xs.length by omega)]
    rw [List.getElem?_append_right h, List.getElem?_append_right (by simp)]
    simp

theorem jsIndex_jsIndexSet_other (xs : List Value) (i j : Nat) (v : Value)
    (h : j ≠ i) : jsIndex (jsIndexSet xs i v) j = jsIndex xs j := by
  by_cases hi : i < xs.length
  · simp [jsIndex, jsIndexSet, hi, List.getElem?_set_ne (Ne.symm h)]
  · push_neg at hi
    simp only [jsIndexSet, jsIndex, List.get?_eq_getElem?]
    rw [if_neg (show ¬ i < xs.length by omega)]
    by_cases hj : j < xs.length
    · rw [List.getElem?_append_left hj]
    · push_neg at hj
      rw [List.getElem?_eq_none hj, List.getElem?_append_right hj]
      by_cases hji : j < i
      · rw [List.getElem?_append_left (by simp; omega)]
        simp [List.getElem?_replicate, show j - xs.length < i - xs.length by omega]
      · rw [List.getElem?_append_right (by simp; omega)]
        rw [List.getElem?_eq_none (by simp; omega)]

/-! Claim theorems. -/

/-- C1: the evaluator `composable` returns `action(context)` for an
invocable transform and the action itself, unchanged and without
error, for a literal of any shape, records and sequences included. -/
theorem composable_dispatch_total :
    (∀ (c : Value) (f : Value → Option Value), composable c (.fn f) = f c) ∧
    (∀ (c v : Value), composable c (.lit v) = some v) ∧
    (∀ (c : Value) (es : List (String × Value)), composable c (.lit (.record es)) = some (.record es)) ∧
    (∀ (c : Value) (xs : List Value), composable c (.lit (.seq xs)) = some (.seq xs)) :=
  ⟨fun _ _ => rfl, fun _ _ => rfl, fun _ _ => rfl, fun _ _ => rfl⟩

/-- C7: `replace(x)` applied to context `c` is exactly `apply(c, x)`:
a literal `x` comes back verbatim whatever `c`'s shape (so the kind
can change, e.g. a sequence context replaced by a scalar), and a
transform `x` yields `x(c)`. -/
theorem replace_full_replacement :
    (∀ (c : Value) (x : Action), composable c (replace x) = composable c x) ∧
    (∀ (c v : Value), composable c (replace (.lit v)) = some v) ∧
    (∀ (c : Value) (f : Value → Option Value), composable c (replace (.fn f)) = f c) ∧
    composable (.seq [.num 1, .num 2]) (replace (.lit (.num 5))) = some (.num 5) :=
  ⟨fun _ _ => rfl, fun _ _ => rfl, fun _ _ => rfl, rfl⟩

/-- C2: `setIn(k, u)` on a record or sequence context produces a
shallow copy of the same kind whose position `k` holds
`apply(c[k], u)` while every other position holds the original child
of `c` unchanged. -/
theorem setIn_locality :
    (∀ (es : List (String × Value)) (k : String) (u : Action) (v : Value),
      composable (jsLookup es k) u = some v →
        composable (.record es) (setIn (.str k) u) = some (.record (recordSet es k v)) ∧
        jsLookup (recordSet es k v) k = v ∧
        ∀ k2, k2 ≠ k → jsLookup (recordSet es k v) k2 = jsLookup es k2) ∧
    (∀ (xs : List Value) (i : Nat) (u : Action) (v : Value),
      composable (jsIndex xs i) u = some v →
        composable (.seq xs) (setIn (.idx i) u) = some (.seq (jsIndexSet xs i v)) ∧
        jsIndex (jsIndexSet xs i v) i = v ∧
        ∀ j, j ≠ i → jsIndex (jsIndexSet xs i v) j = jsIndex xs j) := by
  constructor
  · intro es k u v h
    refine ⟨?_, jsLookup_recordSet_self es k v, fun k2 hk2 => jsLookup_recordSet_other es k k2 v hk2⟩
    have hrw : composable (Value.record es) (setIn (.str k) u)
        = (composable (jsLookup es k) u).map (fun v2 => Value.record (recordSet es k v2)) := rfl
    rw [hrw, h]
    rfl
  · intro xs i u v h
    refine ⟨?_, jsIndex_jsIndexSet_self xs i v, fun j hj => jsIndex_jsIndexSet_other xs i j v hj⟩
    have hrw : composable (Value.seq xs) (setIn (.idx i) u)
        = (composable (jsIndex xs i) u).map (fun v2 => Value.seq (jsIndexSet xs i v2)) := rfl
    rw [hrw, h]
    rfl

/-- Witness for C2 at the spec's own example:
`composable([10,9,8,7], setIn(1, 999))` is `[10,999,8,7]`. -/
theorem setIn_locality_witness :
    composable (.seq [.num 10, .num 9, .num 8, .num 7]) (setIn (.idx 1) (.lit (.num 999)))
      = some (.seq [.num 10, .num 999, .num 8, .num 7]) :=
  (setIn_locality.2 [.num 10, .num 9, .num 8, .num 7] 1 (.lit (.num 999)) (.num 999) rfl).1

/-- C3: `select` is `selectArray` after tokenization, the tokenizer
splits `foo.bar[key.with.dots].fizz[buzz]` into
`['foo','bar','key.with.dots','fizz','buzz']`, and on any context
`select("a.b.c", u)` agrees with `selectArray(["a","b","c"], u)`. -/
theorem select_path_equivalence :
    (∀ (p : String) (u : Action),
      select p u = (pathSplit p).map (fun ks => selectArray (ks.map Key.str) u)) ∧
    pathSplit ("foo.bar[key.with.dots].fizz[buzz]")
      = some ["foo", "bar", "key.with.dots", "fizz", "buzz"] ∧
    (∀ (u : Action) (c : Value),
      (select ("a.b.c") u).bind (fun a => composable c a)
        = composable c (selectArray [Key.str ("a"), Key.str ("b"), Key.str ("c")] u)) := by
  refine ⟨fun p u => rfl, rfl, fun u c => ?_⟩
  have h : select ("a.b.c") u = some (selectArray [Key.str ("a"), Key.str ("b"), Key.str ("c")] u) := rfl
  rw [h]
  rfl

/-- C9: a path the tokenizer cannot split into at least one segment
makes `pathSplit` throw (`none`), so `select` yields no action at all;
the update is never silently applied at the root. -/
theorem select_malformed_path_fails (p : String) (u : Action)
    (h : scanTokens p.toList = []) :
    pathSplit p = none ∧ select p u = none := by
  have hp : pathSplit p = none := by
    unfold pathSplit
    rw [h]
  exact ⟨hp, by simp [select, hp]⟩

/-- Witness for C9: the empty path string parses to no segment, so
`select` fails instead of producing an action. -/
theorem select_malformed_path_fails_witness :
    pathSplit ("") = none ∧ select ("") (replace (.lit (.num 0))) = none :=
  select_malformed_path_fails ("") (replace (.lit (.num 0))) rfl

theorem foldl_chainStep_none (l : List Action) : l.foldl chainStep none = none := by
  induction l with
  | nil => rfl
  | cons a l ih => simpa [chainStep] using ih

theorem foldl_chainStep_bind (l : List Action) (o : Option Value) :
    l.foldl chainStep o = o.bind (fun m => l.foldl chainStep (some m)) := by
  cases o with
  | none => simp [foldl_chainStep_none]
  | some m => rfl

/-- C5: `collect` is the left fold of the evaluator over its action
list in order, each step feeding the next; in particular a two-element
collect is the second action evaluated on the first one's result, and
folds over concatenated lists compose sequentially. -/
theorem collect_fold_sequencing :
    (∀ (c : Value) (actions : List Action),
      composable c (collect actions) = actions.foldl chainStep (some c)) ∧
    (∀ (c : Value) (a1 a2 : Action),
      composable c (collect [a1, a2])
        = (composable c a1).bind (fun m => composable m a2)) ∧
    (∀ (c : Value) (l1 l2 : List Action),
      composable c (collect (l1 ++ l2))
        = (composable c (collect l1)).bind (fun m => composable m (collect l2))) := by
  refine ⟨fun c actions => rfl, fun c a1 a2 => rfl, fun c l1 l2 => ?_⟩
  have h : composable c (collect (l1 ++ l2)) = (l1 ++ l2).foldl chainStep (some c) := rfl
  rw [h, List.foldl_append]
  exact foldl_chainStep_bind l2 _

theorem foldl_selectStep_none (ps : List (String × Action)) :
    ps.foldl selectStep none = none := by
  induction ps with
  | nil => rfl
  | cons pa ps ih => simpa [selectStep] using ih

theorem foldl_selectStep_bind (ps : List (String × Action)) (o : Option Value) :
    ps.foldl selectStep o = o.bind (fun m => ps.foldl selectStep (some m)) := by
  cases o with
  | none => simp [foldl_selectStep_none]
  | some m => rfl

/-- C6: `selectAll` folds `apply(memo, select(path, action))` over its
entries in iteration order starting from the context, so every entry
runs on the accumulated result of the previous entries — a later entry
on an overlapping path sees the earlier edit, as the concrete overlap
instance at the end shows (`a` is first set to 1, then incremented to
2, not applied to the original 0). -/
theorem selectAll_fold_threading :
    (∀ (c : Value) (ps : List (String × Action)),
      composable c (selectAll ps) = ps.foldl selectStep (some c)) ∧
    (∀ (c : Value) (pa : String × Action) (rest : List (String × Action)),
      composable c (selectAll (pa :: rest))
        = ((select pa.1 pa.2).bind (fun a => composable c a)).bind
            (fun m => composable m (selectAll rest))) ∧
    composable (.record [("a", .num 0)])
        (selectAll [("a", .lit (.num 1)),
          ("a", .fn (fun v => match v with | .num n => some (.num (n + 1)) | _ => none))])
      = some (.record [("a", .num 2)]) := by
  refine ⟨fun c ps => rfl, fun c pa rest => ?_, rfl⟩
  have h : composable c (selectAll (pa :: rest))
      = rest.foldl selectStep (selectStep (some c) pa) := rfl
  rw [h, foldl_selectStep_bind rest (selectStep (some c) pa)]
  rfl

/-- C4: `range(start, length, u)` splits a sequence into prefix
`[0, start)`, window `[start, start+length)` and suffix
`[start+length, end)`, evaluates `u` on the window and concatenates;
the evaluated window may have any length, a `start` beyond the end
makes the prefix the whole sequence with empty window and suffix, and
a `length` past the end makes the window all remaining elements with
an empty suffix. -/
theorem range_splice :
    ∀ (xs : List Value) (start len : Nat) (u : Action) (ws : List Value),
      composable (.seq ((xs.drop start).take len)) u = some (.seq ws) →
        composable (.seq xs) (range start len u)
            = some (.seq (xs.take start ++ ws ++ xs.drop (start + len))) ∧
        (xs.length ≤ start →
          xs.take start = xs ∧ (xs.drop start).take len = ([] : List Value) ∧
            xs.drop (start + len) = ([] : List Value)) ∧
        (xs.length ≤ start + len →
          (xs.drop start).take len = xs.drop start ∧
            xs.drop (start + len) = ([] : List Value)) := by
  intro xs start len u ws h
  refine ⟨?_, fun hs => ⟨List.take_of_length_le hs,
      by rw [List.drop_eq_nil_of_le hs]; simp, List.drop_eq_nil_of_le (by omega)⟩,
    fun hs => ⟨List.take_of_length_le (by rw [List.length_drop]; omega),
      List.drop_eq_nil_of_le (by omega)⟩⟩
  have hrw : composable (Value.seq xs) (range start len u)
      = (composable (.seq ((xs.drop start).take len)) u).map
          (fun w => Value.seq (xs.take start ++ concatArg w ++ xs.drop (start + len))) := rfl
  rw [hrw, h]
  rfl

/-- Witness for C4 at the spec's deletion example:
`composable([1,2,99,100,3,4], range(2,2, replace([])))` is `[1,2,3,4]`. -/
theorem range_splice_witness :
    composable (.seq [.num 1, .num 2, .num 99, .num 100, .num 3, .num 4])
        (range 2 2 (replace (.lit (.seq []))))
      = some (.seq [.num 1, .num 2, .num 3, .num 4]) :=
  (range_splice [.num 1, .num 2, .num 99, .num 100, .num 3, .num 4] 2 2
    (replace (.lit (.seq []))) [] rfl).1

theorem jsLookup_spreadInto_not_mem (es us : List (String × Value)) (k : String)
    (h : k ∉ us.map Prod.fst) :
    jsLookup (spreadInto es us) k = jsLookup es k := by
  induction us generalizing es with
  | nil => rfl
  | cons p us ih =>
    simp only [List.map_cons, List.mem_cons, not_or] at h
    have hstep : spreadInto es (p :: us) = spreadInto (recordSet es p.1 p.2) us := rfl
    rw [hstep, ih (recordSet es p.1 p.2) h.2]
    exact jsLookup_recordSet_other es p.1 k p.2 h.1

theorem jsLookup_spreadInto_mem (es us : List (String × Value)) (k : String)
    (hnd : (us.map Prod.fst).Nodup) (h : k ∈ us.map Prod.fst) :
    jsLookup (spreadInto es us) k = jsLookup us k := by
  induction us generalizing es with
  | nil => simp at h
  | cons p us ih =>
    obtain ⟨k1, v1⟩ := p
    simp only [List.map_cons, List.nodup_cons] at hnd
    have hstep : spreadInto es ((k1, v1) :: us) = spreadInto (recordSet es k1 v1) us := rfl
    rw [hstep]
    by_cases hk : k = k1
    · subst hk
      rw [jsLookup_spreadInto_not_mem _ _ _ hnd.1, jsLookup_recordSet_self]
      simp [jsLookup]
    · have hm : k ∈ us.map Prod.fst := by
        simp only [List.map_cons, List.mem_cons] at h
        tauto
      rw [ih _ hnd.2 hm]
      simp [jsLookup, hk, Ne.symm hk]

/-- C8: on a record context whose update evaluates to a record with
distinct keys, `merge` spread-overlays the evaluated update over the
context: colliding keys take the update's value, keys only in the
context keep their original value. -/
theorem merge_overlay :
    ∀ (es us : List (String × Value)) (u : Action),
      composable (.record es) u = some (.record us) →
      (us.map Prod.fst).Nodup →
        composable (.record es) (merge u) = some (.record (spreadInto es us)) ∧
        (∀ k, k ∈ us.map Prod.fst → jsLookup (spreadInto es us) k = jsLookup us k) ∧
        (∀ k, k ∉ us.map Prod.fst → jsLookup (spreadInto es us) k = jsLookup es k) := by
  intro es us u h hnd
  refine ⟨?_, fun k hk => jsLookup_spreadInto_mem es us k hnd hk,
    fun k hk => jsLookup_spreadInto_not_mem es us k hk⟩
  have hrw : composable (Value.record es) (merge u)
      = (composable (Value.record es) u).map
          (fun uv => Value.record (spreadInto (objEntries (Value.record es)) (objEntries uv))) := rfl
  rw [hrw, h]
  rfl

/-- Witness for C8 at the spec's own example:
`composable({text:'hello'}, merge({text:'goodbye'}))` is `{text:'goodbye'}`. -/
theorem merge_overlay_witness :
    composable (.record [("text", .str ("hello"))])
        (merge (.lit (.record [("text", .str ("goodbye"))])))
      = some (.record [("text", .str ("goodbye"))]) :=
  (merge_overlay [("text", .str ("hello"))] [("text", .str ("goodbye"))]
    (.lit (.record [("text", .str ("goodbye"))])) rfl (by simp)).1

/-- C10 as stated is false: a string is a scalar, but spreading it
copies its character-index entries into the fresh record, so on
context `'ab'` with key `'0'` and the identity transform the entry at
the key is the character `'a'`, not the update applied to the absence
marker, and the result keeps the character entries rather than being
the single-entry record the claim describes. -/
theorem setIn_scalar_claim_counterexample :
    composable (.str ("ab")) (setIn (.str ("0")) (.fn some))
        = some (.record [("0", .str ("a")), ("1", .str ("b"))]) ∧
    composable .absent (.fn some) = some .absent ∧
    jsLookup [("0", .str ("a")), ("1", .str ("b"))] "0" ≠ Value.absent ∧
    Value.record [("0", .str ("a")), ("1", .str ("b"))] ≠ Value.record [("0", Value.absent)] := by
  refine ⟨rfl, rfl, fun hx => ?_, fun hx => ?_⟩
  · exact Value.noConfusion (show Value.str ("a") = Value.absent from hx)
  · simp at hx

theorem setIn_eval (c : Value) (k : Key) (u : Action) :
    composable c (setIn k u) =
      match c with
      | .seq xs =>
        match keyIndex k with
        | some i => (composable (jsIndex xs i) u).map (fun v => Value.seq (jsIndexSet xs i v))
        | none => (composable Value.absent u).map (fun _ => Value.seq xs)
      | _ => (composable (jsLookup (objEntries c) (keyToString k)) u).map
          (fun v => Value.record (recordSet (objEntries c) (keyToString k) v)) := by
  cases c <;> rfl

/-- C10 amended: `setIn` is total over every context kind — whenever
the update itself evaluates without error, `apply(c, setIn(k, u))`
raises no error even for scalar or absent contexts; a non-sequence
context is spread into a record, so for a number, boolean or absent
context the result is the fresh single-entry record holding
`apply(absent, u)` at `k`, while a string context first contributes
its character-index entries and the update is applied to the character
stored at `k` (the absence marker only when `k` is no such index). -/
theorem setIn_total_amended :
    (∀ (c : Value) (k : Key) (u : Action),
      (∀ v, (composable v u).isSome) → (composable c (setIn k u)).isSome) ∧
    (∀ (n : Int) (b : Bool) (k : String) (u : Action) (v2 : Value),
      composable .absent u = some v2 →
        composable (.num n) (setIn (.str k) u) = some (.record [(k, v2)]) ∧
        composable (.bool b) (setIn (.str k) u) = some (.record [(k, v2)]) ∧
        composable .absent (setIn (.str k) u) = some (.record [(k, v2)])) ∧
    (∀ (s k : String) (u : Action) (v2 : Value),
      composable (jsLookup (objEntries (.str s)) k) u = some v2 →
        composable (.str s) (setIn (.str k) u)
          = some (.record (recordSet (objEntries (.str s)) k v2))) := by
  refine ⟨?_, ?_, ?_⟩
  · intro c k u h
    rw [setIn_eval]
    cases c with
    | seq xs =>
      cases hk : keyIndex k with
      | some i => simpa using h (jsIndex xs i)
      | none => simpa using h Value.absent
    | absent => simpa using h _
    | bool b => simpa using h _
    | num n => simpa using h _
    | str s => simpa using h _
    | record es => simpa using h _
  · intro n b k u v2 h
    refine ⟨?_, ?_, ?_⟩ <;> (rw [setIn_eval]; simp [objEntries, keyToString, jsLookup] at h ⊢)
      <;> simp [h, recordSet]
  · intro s k u v2 h
    rw [setIn_eval]
    simp only [keyToString]
    rw [h]
    rfl

/-- Witness for C10's amended theorem: a literal update never throws,
so `setIn` applied to the scalar context `5` succeeds. -/
theorem setIn_total_amended_witness :
    (composable (.num 5) (setIn (.str ("x")) (.lit (.bool true)))).isSome :=
  setIn_total_amended.1 (.num 5) (.str ("x")) (.lit (.bool true)) (fun _ => rfl)

end ComposableState
